import Mathlib

/-!
Verification of the multi-llm-eval frontend sources.

The TypeScript sources under `src/frontend/src` are shallowly embedded as
Lean definitions: JavaScript strings become `List Char` (or Lean `String`
where convenient), `String.prototype.split` with a one- or two-character
separator becomes the executable functions `splitOnChar` / `splitNN`,
optional values become `Option`, and the streamed HTTP body consumed by
`llmApi.evaluateStream` becomes a list of chunks of characters (the
`TextDecoder` with `stream: true` resolves byte-level boundaries, so a
character-level model is faithful).  `JSON.parse` is an external library
routine; it is modelled as an explicit parameter `parse : List Char →
Option StreamEvent`, with `none` standing for a thrown exception.
-/

namespace MultiLLMEval

/-- Characters of a Lean string literal, used to embed JS string literals. -/
def chars (s : String) : List Char := s.data

/-- Model of the JavaScript whitespace test used by `String.prototype.trim`. -/
def isWS (c : Char) : Bool :=
  c == ' ' || c == '\n' || c == '\t' || c == '\r'

/-- Model of `String.prototype.trim`. -/
def trimWS (l : List Char) : List Char :=
  ((l.dropWhile isWS).reverse.dropWhile isWS).reverse

/-- Model of JS `str.split(sep)` for a single-character separator:
left-to-right scan, fragments never contain the separator. -/
def splitOnChar (sep : Char) : List Char → List (List Char)
  | [] => [[]]
  | c :: rest =>
    if c = sep then [] :: splitOnChar sep rest
    else
      match splitOnChar sep rest with
      | [] => [[c]]
      | h :: t => (c :: h) :: t

/-- Model of JS `str.split("\n\n")` (the SSE event separator): greedy
left-to-right scan for the two-character separator. -/
def splitNN : List Char → List (List Char)
  | [] => [[]]
  | [c] => [[c]]
  | c₁ :: c₂ :: rest =>
    if c₁ = '\n' ∧ c₂ = '\n' then [] :: splitNN rest
    else
      match splitNN (c₂ :: rest) with
      | [] => [[c₁]]
      | h :: t => (c₁ :: h) :: t

/-- SSE wire text for a list of event payload texts: one `data: <json>` line
per event, consecutive events separated by a blank line. -/
def intercalateNN : List (List Char) → List Char
  | [] => []
  | [e] => e
  | e :: es => e ++ '\n' :: '\n' :: intercalateNN es

/-! ## Data model, from `src/frontend/src/types/api.ts` -/

/-- `ModelSelection` of `types/api.ts`. -/
structure ModelSelection where
  provider : String
  model : String
deriving DecidableEq

/-- `EvaluationRequest` of `types/api.ts`. -/
structure EvaluationRequest where
  query : String
  selections : List ModelSelection
deriving DecidableEq

/-- `MetricResult` of `types/api.ts`; JS numbers are modelled as rationals. -/
structure MetricResult where
  latency_ms : Rat
  tokens_per_second : Rat
  input_tokens : Rat
  output_tokens : Rat
  estimated_cost : Rat
  coherence_score : Rat
  relevance_score : Rat
  quality_score : Rat
deriving DecidableEq

/-- `LLMResponse` of `types/api.ts`. -/
structure LLMResponse where
  provider : String
  model : String
  response : String
  metrics : MetricResult
  error : Option String := none
deriving DecidableEq

/-- `ComparisonSummary` of `types/api.ts`. -/
structure ComparisonSummary where
  fastest : String
  highest_quality : String
  most_cost_effective : String
  best_overall : String
deriving DecidableEq

/-- `EvaluationResult` of `types/api.ts`. -/
structure EvaluationResult where
  id : String
  query : String
  timestamp : String
  responses : List LLMResponse
  comparison_summary : ComparisonSummary
deriving DecidableEq

/-- `StreamEvent` of `types/api.ts`.  The opaque `data?: any` payload is
modelled as an optional string. -/
structure StreamEvent where
  type : String
  node : Option String := none
  data : Option String := none
  error : Option String := none
  result : Option EvaluationResult := none
deriving DecidableEq

/-- The kinds admitted by the `StreamEvent.type` union in `types/api.ts`. -/
def streamEventTypes : List String :=
  ["node_start", "node_complete", "error", "complete"]

/-! ## `llmApi.evaluateStream`, from `src/frontend/src/services/api.ts`

The processing state is the pair of the `onEvent` call list (in call
order) and the `finalResult` variable. `JSON.parse` is the parameter
`parse`; `none` models a thrown parse error, which the source catches
and ignores. -/

/-- One step of the `finalResult` update:
`if (data.type === "complete" && data.result) finalResult = data.result`. -/
def applyComplete (acc : Option EvaluationResult) (d : StreamEvent) :
    Option EvaluationResult :=
  if d.type == "complete" && d.result.isSome then d.result else acc

/-- The body of the `for (const line of lines)` loop: lines starting with
`"data: "` are stripped of the 6-character tag and parsed; parse failures
are swallowed. -/
def handleLine (parse : List Char → Option StreamEvent)
    (acc : List StreamEvent × Option EvaluationResult) (line : List Char) :
    List StreamEvent × Option EvaluationResult :=
  if (chars "data: ").isPrefixOf line then
    match parse (line.drop 6) with
    | some d => (acc.1 ++ [d], applyComplete acc.2 d)
    | none => acc
  else acc

/-- Processing of one complete SSE event text: `event.split("\n")` then the
per-line loop. -/
def handleEventText (parse : List Char → Option StreamEvent)
    (acc : List StreamEvent × Option EvaluationResult) (ev : List Char) :
    List StreamEvent × Option EvaluationResult :=
  (splitOnChar '\n' ev).foldl (handleLine parse) acc

/-- One iteration of the `while (true)` read loop: append the chunk to the
buffer, split on the blank-line separator, keep the last (possibly
incomplete) fragment as the new buffer and process the complete events. -/
def streamStep (parse : List Char → Option StreamEvent)
    (st : List Char × (List StreamEvent × Option EvaluationResult))
    (chunk : List Char) :
    List Char × (List StreamEvent × Option EvaluationResult) :=
  let parts := splitNN (st.1 ++ chunk)
  (parts.getLastD [], parts.dropLast.foldl (handleEventText parse) st.2)

/-- The post-loop flush: `if (buffer.trim())` process the remaining buffer
line by line. -/
def flushTail (parse : List Char → Option StreamEvent)
    (st : List Char × (List StreamEvent × Option EvaluationResult)) :
    List StreamEvent × Option EvaluationResult :=
  if trimWS st.1 ≠ [] then (splitOnChar '\n' st.1).foldl (handleLine parse) st.2
  else st.2

/-- `llmApi.evaluateStream`, as a function of the list of body chunks
delivered by `reader.read()`: returns the `onEvent` call sequence and the
returned `finalResult`. -/
def evaluateStream (parse : List Char → Option StreamEvent)
    (chunks : List (List Char)) :
    List StreamEvent × Option EvaluationResult :=
  flushTail parse (chunks.foldl (streamStep parse) ([], ([], none)))

/-- The result carried by the last `complete` event that carries a result,
`none` when there is no such event (the claim's description of the return
value). -/
def lastCompleteResult (evs : List StreamEvent) : Option EvaluationResult :=
  ((evs.filter (fun e => e.type == "complete" && e.result.isSome)).getLast?).bind
    (fun e => e.result)

/-! ## Client state and stream-event handler, from `src/frontend/src/App.tsx` -/

/-- The pieces of `App` component state touched by `handleStreamEvent`. -/
structure AppState where
  currentResult : Option EvaluationResult
  history : List EvaluationResult
  error : Option String
  streamingStatus : Option String
  completedNodes : List String
deriving DecidableEq

/-- `allNodes` of `App.tsx`. -/
def allNodes : List String :=
  ["validate_input", "parallel_evaluation", "retry_failed", "error_recovery",
   "calculate_metrics", "llm_judge", "generate_summary"]

/-- `statusMap` of `App.tsx` (`handleStreamEvent`, `node_complete` case). -/
def statusMap : List (String × String) :=
  [("validate_input", "Validated input"),
   ("parallel_evaluation", "Evaluating models..."),
   ("retry_failed", "Retrying failed models..."),
   ("error_recovery", "Recovering from errors..."),
   ("calculate_metrics", "Calculating metrics..."),
   ("llm_judge", "LLM Judge evaluating responses..."),
   ("generate_summary", "Generating summary...")]

/-- `statusMap` of the alternate client in `src/unnamed/part_000`
(lines 86-93). -/
def statusMapLegacy : List (String × String) :=
  [("validate_input", "Validated input"),
   ("parallel_evaluation", "Evaluating models..."),
   ("retry_failed", "Retrying failed models..."),
   ("calculate_metrics", "Calculating metrics..."),
   ("run_tools", "Running analysis tools..."),
   ("generate_summary", "Generating summary...")]

/-- `statusMap[event.node] || event.node` (a missing key or an empty value
is falsy in JS). -/
def statusOf (n : String) : String :=
  match statusMap.lookup n with
  | some v => if v = "" then n else v
  | none => n

/-- `handleStreamEvent` of `App.tsx`: a switch on `event.type` with cases
`node_complete`, `error` and `complete` and no default.  JS truthiness
checks on `event.node` and `event.error` make the empty string fall
through to the fallback behaviour. -/
def handleStreamEvent (s : AppState) (e : StreamEvent) : AppState :=
  if e.type == "node_complete" then
    match e.node with
    | some n =>
      if n = "" then s
      else { s with completedNodes := s.completedNodes ++ [n],
                    streamingStatus := some (statusOf n) }
    | none => s
  else if e.type == "error" then
    { s with error := some (match e.error with
        | some m => if m = "" then "An error occurred" else m
        | none => "An error occurred") }
  else if e.type == "complete" then
    match e.result with
    | some r => { s with currentResult := some r, history := r :: s.history }
    | none => s
  else s

/-! ## `QueryInput`, from `src/frontend/src/components/ComparisonSummary.tsx`
(lines 107-251) -/

/-- The `(provider, model)` identity test used by `toggleModel`,
`isModelSelected` and `removeSelection`. -/
def pairMatches (p m : String) (s : ModelSelection) : Bool :=
  s.provider == p && s.model == m

/-- `toggleModel` of `QueryInput`. -/
def toggleModel (p m : String) (prev : List ModelSelection) :
    List ModelSelection :=
  if prev.any (pairMatches p m) then
    prev.filter (fun s => !(pairMatches p m s))
  else prev ++ [⟨p, m⟩]

/-- `removeSelection` of `QueryInput`. -/
def removeSelection (p m : String) (prev : List ModelSelection) :
    List ModelSelection :=
  prev.filter (fun s => !(pairMatches p m s))

/-- One user interaction with the selection list. -/
inductive SelOp where
  | toggle : String → String → SelOp
  | remove : String → String → SelOp

/-- Apply one interaction to the selection state. -/
def applySelOp (prev : List ModelSelection) (op : SelOp) : List ModelSelection :=
  match op with
  | .toggle p m => toggleModel p m prev
  | .remove p m => removeSelection p m prev

/-- The `(provider, model)` pair of a selection. -/
def pairOf (s : ModelSelection) : String × String := (s.provider, s.model)

/-- The guard of `handleSubmit`: `query.trim() && selections.length > 0`. -/
def handleSubmitGuard (query : String) (selections : List ModelSelection) :
    Bool :=
  !(trimWS query.data).isEmpty && selections.length > 0

/-- `handleSubmit` of `QueryInput`: `some` of the `onSubmit` arguments when
the callback fires, `none` otherwise. -/
def handleSubmit (query : String) (selections : List ModelSelection) :
    Option (String × List ModelSelection) :=
  if handleSubmitGuard query selections then some (query, selections) else none

/-- The `disabled` expression of the submit button:
`!query.trim() || selections.length === 0 || isLoading`. -/
def submitDisabled (query : String) (selections : List ModelSelection)
    (isLoading : Bool) : Bool :=
  (trimWS query.data).isEmpty || selections.length == 0 || isLoading

/-! ## `shortenModelName`, from `ComparisonSummary.tsx` (lines 13-23) and
`ResultsDisplay.tsx` (lines 22-32) -/

/-- `shortenModelName`: empty input renders as `"N/A"`; otherwise the last
`/`-separated segment, truncated to 18 characters plus `"..."` when longer
than 20. -/
def shortenModelName (fullName : String) : String :=
  if fullName = "" then "N/A"
  else
    let parts := splitOnChar '/' fullName.data
    let modelPart := parts.getLastD []
    if modelPart.length > 20 then String.mk (modelPart.take 18) ++ "..."
    else String.mk modelPart

/-- The last `/`-separated segment of a string (the claim's description of
what `shortenModelName` extracts). -/
def lastSegment (s : String) : List Char :=
  (splitOnChar '/' s.data).getLastD []

/-- The four texts rendered by the `ComparisonSummary` card, in card
order. -/
def summaryCells (cs : ComparisonSummary) : List String :=
  [shortenModelName cs.fastest, shortenModelName cs.highest_quality,
   shortenModelName cs.most_cost_effective, shortenModelName cs.best_overall]

/-! ## `ChatPanel.handleSend`, from `src/frontend/src/components/ChatPanel.tsx` -/

/-- `ChatMessage` of `types/api.ts`. -/
structure ChatMessage where
  id : String
  role : String
  content : String
  timestamp : String
deriving DecidableEq

/-- `ChatResponse` of `types/api.ts`. -/
structure ChatResponse where
  message : ChatMessage
  session_id : String
deriving DecidableEq

/-- The assistant error text added on the failure path of `handleSend`. -/
def chatErrorText : String :=
  "Sorry, I encountered an error. Please check the backend connection and try again."

/-- `handleSend` of `ChatPanel`, as a function of the final messages list.
`t1`/`t2` model the two `Date.now()` reads, `iso1`/`iso2` the two
`toISOString()` reads, and `outcome` the completion of
`llmApi.sendChatMessage` (`none` models a thrown error). -/
def handleSend (input : String) (isLoading : Bool) (prev : List ChatMessage)
    (t1 t2 iso1 iso2 : String) (outcome : Option ChatResponse) :
    List ChatMessage :=
  if trimWS input.data = [] ∨ isLoading then prev
  else
    let userMessage := String.mk (trimWS input.data)
    let tempUserMessage : ChatMessage :=
      ⟨"temp-" ++ t1, "user", userMessage, iso1⟩
    let afterOptimistic := prev ++ [tempUserMessage]
    match outcome with
    | some resp =>
      (afterOptimistic.filter (fun m => m.id != tempUserMessage.id)) ++
        [{ tempUserMessage with id := "user-" ++ t2 }, resp.message]
    | none =>
      afterOptimistic ++ [⟨"error-" ++ t2, "assistant", chatErrorText, iso2⟩]

/-! ## The evaluation pipeline (backend), modelled from the spec -/

/-- Modelled from the spec: the backend evaluation pipeline is not among
the frontend sources; §4.1 fixes its stage sequence as the seven named
stages below, in this order. -/
def pipelineStages : List String :=
  ["validate_input", "parallel_evaluation", "retry_failed", "error_recovery",
   "calculate_metrics", "llm_judge", "generate_summary"]

/-- Validity of an `EvaluationRequest` (§3 of the spec): query non-empty
after trimming, selections non-empty. -/
def validRequest (req : EvaluationRequest) : Bool :=
  !(trimWS req.query.data).isEmpty && req.selections.length > 0

/-- Modelled from the spec: the event stream the backend pipeline emits for
a run that completes with result `r` — one `node_complete` event per stage
of §4.1, in that fixed order, then exactly one `complete` event carrying
the full result (§5, §8); an `error` event when validation fails, with no
further events after it (§6). -/
def pipelineEvents (req : EvaluationRequest) (r : EvaluationResult) :
    List StreamEvent :=
  if validRequest req then
    pipelineStages.map (fun n => { type := "node_complete", node := some n }) ++
      [{ type := "complete", result := some r }]
  else
    [{ type := "error", error := some "validation error" }]

/-! ## Well-formed SSE stream bodies (the form described by the spec) -/

/-- One wire line of the stream: `data: ` followed by the serialized
event. -/
def dataLine (j : List Char) : List Char := chars "data: " ++ j

/-- The stream body text for a sequence of serialized events: one
`data: <json>` line per event, consecutive events separated by a blank
line. -/
def sseText (js : List (List Char)) : List Char :=
  intercalateNN (js.map dataLine)

/-! ## Library lemmas for the split and trim models -/

/-- Two-step induction on character lists, following the recursion
pattern of `splitNN`. -/
theorem twoStepInduction {α : Type} {P : List α → Prop} (h0 : P [])
    (h1 : ∀ c, P [c])
    (h2 : ∀ c₁ c₂ rest, P rest → P (c₂ :: rest) → P (c₁ :: c₂ :: rest)) :
    ∀ l, P l := by
  have key : ∀ l, P l ∧ (∀ c, P (c :: l)) := by
    intro l
    induction l with
    | nil => exact ⟨h0, h1⟩
    | cons c₂ rest ih => exact ⟨ih.2 c₂, fun c₁ => h2 c₁ c₂ rest ih.1 (ih.2 c₂)⟩
  exact fun l => (key l).1

theorem splitNN_nil : splitNN [] = [[]] := rfl

theorem splitNN_single (c : Char) : splitNN [c] = [[c]] := rfl

theorem splitNN_cons₂ (c₁ c₂ : Char) (rest : List Char) :
    splitNN (c₁ :: c₂ :: rest) =
      if c₁ = '\n' ∧ c₂ = '\n' then [] :: splitNN rest
      else
        match splitNN (c₂ :: rest) with
        | [] => [[c₁]]
        | h :: t => (c₁ :: h) :: t := by
  rfl

theorem splitNN_cons₂_nn (rest : List Char) :
    splitNN ('\n' :: '\n' :: rest) = [] :: splitNN rest := by
  rw [splitNN_cons₂]
  simp

theorem splitNN_cons₂_ne {c₁ c₂ : Char} {rest hd : List Char}
    {tl : List (List Char)} (h : ¬(c₁ = '\n' ∧ c₂ = '\n'))
    (h' : splitNN (c₂ :: rest) = hd :: tl) :
    splitNN (c₁ :: c₂ :: rest) = (c₁ :: hd) :: tl := by
  rw [splitNN_cons₂, if_neg h, h']

theorem splitNN_ne_nil : ∀ l, splitNN l ≠ [] := by
  refine twoStepInduction (by simp [splitNN_nil]) (by simp [splitNN_single]) ?_
  intro c₁ c₂ rest _ _
  rw [splitNN_cons₂]
  split
  · simp
  · rcases h : splitNN (c₂ :: rest) with _ | ⟨hd, tl⟩ <;> simp [h]

theorem splitNN_singleton_eq : ∀ l hd, splitNN l = [hd] → hd = l := by
  refine twoStepInduction ?_ ?_ ?_
  · intro hd h
    rw [splitNN_nil] at h
    simpa using h.symm
  · intro c hd h
    rw [splitNN_single] at h
    simpa using h.symm
  · intro c₁ c₂ rest _ ih₂ hd h
    rw [splitNN_cons₂] at h
    by_cases hnn : c₁ = '\n' ∧ c₂ = '\n'
    · rw [if_pos hnn] at h
      have := splitNN_ne_nil rest
      simp at h
      exact absurd h.2 this
    · rw [if_neg hnn] at h
      rcases h' : splitNN (c₂ :: rest) with _ | ⟨hd', tl'⟩
      · exact absurd h' (splitNN_ne_nil _)
      · rw [h'] at h
        simp at h
        obtain ⟨rfl, rfl⟩ := h
        have := ih₂ hd' h'
        simp [this]

theorem getLastD_append_of_ne_nil {α : Type} (A : List α) {P : List α} (d : α)
    (h : P ≠ []) : (A ++ P).getLastD d = P.getLastD d := by
  rw [List.getLastD_eq_getLast?, List.getLastD_eq_getLast?, List.getLast?_append]
  rcases hP : P.getLast? with _ | v
  · exact absurd (List.getLast?_eq_none_iff.mp hP) h
  · simp [Option.or]

theorem dropLast_append_of_ne_nil {α : Type} (A : List α) {P : List α}
    (h : P ≠ []) : (A ++ P).dropLast = A ++ P.dropLast := by
  rw [List.dropLast_append]
  simp [h]

/-- The incremental SSE split: splitting `X ++ Y` agrees with splitting `X`,
keeping its last fragment as the carry-over buffer for `Y`.  This is the
correctness core of the chunk-buffering loop in `llmApi.evaluateStream`. -/
theorem splitNN_append (X : List Char) : ∀ Y,
    splitNN (X ++ Y) =
      (splitNN X).dropLast ++ splitNN ((splitNN X).getLastD [] ++ Y) := by
  induction X using twoStepInduction with
  | h0 => intro Y; simp [splitNN_nil]
  | h1 c => intro Y; simp [splitNN_single]
  | h2 c₁ c₂ rest ih ih₂ =>
    intro Y
    by_cases hnn : c₁ = '\n' ∧ c₂ = '\n'
    · obtain ⟨rfl, rfl⟩ := hnn
      obtain ⟨h, t, hs⟩ := List.exists_cons_of_ne_nil (splitNN_ne_nil rest)
      have lhs : splitNN (('\n' :: '\n' :: rest) ++ Y) = [] :: splitNN (rest ++ Y) := by
        rw [show ('\n' :: '\n' :: rest) ++ Y = '\n' :: '\n' :: (rest ++ Y) from rfl,
          splitNN_cons₂_nn]
      rw [lhs, splitNN_cons₂_nn, ih Y, hs]
      simp [List.getLastD_eq_getLast?, List.getLast?_cons_cons]
    · obtain ⟨h, t, hs⟩ := List.exists_cons_of_ne_nil (splitNN_ne_nil (c₂ :: rest))
      cases t with
      | nil =>
        have hh : h = c₂ :: rest := splitNN_singleton_eq _ _ hs
        rw [splitNN_cons₂_ne hnn hs, hh]
        rfl
      | cons t₀ t₁ =>
        have hX : splitNN (c₁ :: c₂ :: rest) = (c₁ :: h) :: t₀ :: t₁ :=
          splitNN_cons₂_ne hnn hs
        have hscrut : splitNN (c₂ :: (rest ++ Y)) =
            h :: ((t₀ :: t₁).dropLast ++
              splitNN ((h :: t₀ :: t₁).getLastD [] ++ Y)) := by
          have hstep := ih₂ Y
          rw [hs, show (c₂ :: rest) ++ Y = c₂ :: (rest ++ Y) from rfl] at hstep
          rw [hstep]
          rfl
        have hL : splitNN (c₁ :: c₂ :: (rest ++ Y)) =
            (c₁ :: h) :: ((t₀ :: t₁).dropLast ++
              splitNN ((h :: t₀ :: t₁).getLastD [] ++ Y)) :=
          splitNN_cons₂_ne hnn hscrut
        rw [show (c₁ :: c₂ :: rest) ++ Y = c₁ :: c₂ :: (rest ++ Y) from rfl,
          hL, hX]
        simp [List.getLastD_eq_getLast?, List.getLast?_cons_cons, List.dropLast]

theorem splitNN_of_no_newline : ∀ {l : List Char}, '\n' ∉ l → splitNN l = [l] := by
  have key : ∀ l : List Char, '\n' ∉ l → splitNN l = [l] := by
    refine twoStepInduction ?_ ?_ ?_
    · intro _; exact splitNN_nil
    · intro c _; exact splitNN_single c
    · intro c₁ c₂ rest _ ih₂ hnl
      have h₁ : c₁ ≠ '\n' := by intro h; exact hnl (by simp [h])
      have h₂ : '\n' ∉ c₂ :: rest := by
        intro h; exact hnl (List.mem_cons_of_mem _ h)
      exact splitNN_cons₂_ne (by tauto) (ih₂ h₂)
  exact fun {l} => key l

theorem splitNN_no_newline_append {e : List Char} (r : List Char)
    (hnl : '\n' ∉ e) : splitNN (e ++ '\n' :: '\n' :: r) = e :: splitNN r := by
  have key : ∀ e : List Char, '\n' ∉ e →
      splitNN (e ++ '\n' :: '\n' :: r) = e :: splitNN r := by
    refine twoStepInduction ?_ ?_ ?_
    · intro _; exact splitNN_cons₂_nn r
    · intro c hc
      have h₁ : c ≠ '\n' := by intro h; exact hc (by simp [h])
      exact splitNN_cons₂_ne (by tauto) (splitNN_cons₂_nn r)
    · intro c₁ c₂ rest _ ih₂ hnl
      have h₁ : c₁ ≠ '\n' := by intro h; exact hnl (by simp [h])
      have h₂ : '\n' ∉ c₂ :: rest := by
        intro h; exact hnl (List.mem_cons_of_mem _ h)
      have := ih₂ h₂
      rw [show (c₂ :: rest) ++ '\n' :: '\n' :: r = c₂ :: (rest ++ '\n' :: '\n' :: r)
        from rfl] at this
      exact splitNN_cons₂_ne (by tauto) this
  exact key e hnl

theorem splitOnChar_cons (sep c : Char) (rest : List Char) :
    splitOnChar sep (c :: rest) =
      if c = sep then [] :: splitOnChar sep rest
      else
        match splitOnChar sep rest with
        | [] => [[c]]
        | h :: t => (c :: h) :: t := rfl

theorem splitOnChar_of_not_mem {sep : Char} : ∀ {l : List Char}, sep ∉ l →
    splitOnChar sep l = [l] := by
  have key : ∀ l : List Char, sep ∉ l → splitOnChar sep l = [l] := by
    intro l
    induction l with
    | nil => intro _; rfl
    | cons c rest ih =>
      intro h
      have hc : c ≠ sep := fun hc => h (by simp [hc])
      have hr : sep ∉ rest := fun hr => h (List.mem_cons_of_mem _ hr)
      rw [splitOnChar_cons, if_neg hc, ih hr]
  exact fun {l} => key l

theorem trimWS_cons_ne_nil {c : Char} (l : List Char) (h : isWS c = false) :
    trimWS (c :: l) ≠ [] := by
  unfold trimWS
  rw [List.dropWhile_cons, h]
  simp only [Bool.false_eq_true, if_false]
  intro hcon
  rw [List.reverse_eq_nil_iff, List.dropWhile_eq_nil_iff] at hcon
  have := hcon c (by simp)
  rw [h] at this
  exact Bool.false_ne_true this

theorem intercalateNN_nil : intercalateNN [] = [] := rfl

theorem intercalateNN_single (e : List Char) : intercalateNN [e] = e := rfl

theorem intercalateNN_cons₂ (e e' : List Char) (es : List (List Char)) :
    intercalateNN (e :: e' :: es) = e ++ '\n' :: '\n' :: intercalateNN (e' :: es) := rfl

theorem splitNN_intercalateNN : ∀ es : List (List Char), es ≠ [] →
    (∀ e ∈ es, '\n' ∉ e) → splitNN (intercalateNN es) = es := by
  intro es
  induction es with
  | nil => intro h; exact absurd rfl h
  | cons e es ih =>
    intro _ hnl
    cases es with
    | nil =>
      rw [intercalateNN_single]
      exact splitNN_of_no_newline (hnl e (by simp))
    | cons e' es' =>
      rw [intercalateNN_cons₂,
        splitNN_no_newline_append _ (hnl e (by simp)),
        ih (by simp) (fun x hx => hnl x (List.mem_cons_of_mem _ hx))]

/-! ## Lemmas about the stream-processing loop -/

theorem dataLine_no_newline {j : List Char} (h : '\n' ∉ j) :
    '\n' ∉ dataLine j := by
  unfold dataLine
  intro hmem
  rw [List.mem_append] at hmem
  rcases hmem with h1 | h1
  · revert h1; decide
  · exact h h1

theorem handleLine_dataLine (parse : List Char → Option StreamEvent)
    (acc : List StreamEvent × Option EvaluationResult) (j : List Char)
    (e : StreamEvent) (hp : parse j = some e) :
    handleLine parse acc (dataLine j) = (acc.1 ++ [e], applyComplete acc.2 e) := by
  unfold handleLine dataLine
  have hpre : (chars "data: ").isPrefixOf (chars "data: " ++ j) = true := by
    simp [List.isPrefixOf_iff_prefix]
  rw [if_pos hpre]
  have hdrop : (chars "data: " ++ j).drop 6 = j := by
    have hlen : (chars "data: ").length = 6 := rfl
    rw [← hlen, List.drop_left]
  rw [hdrop, hp]

theorem handleEventText_dataLine (parse : List Char → Option StreamEvent)
    (acc : List StreamEvent × Option EvaluationResult) (j : List Char)
    (e : StreamEvent) (hnl : '\n' ∉ j) (hp : parse j = some e) :
    handleEventText parse acc (dataLine j) =
      (acc.1 ++ [e], applyComplete acc.2 e) := by
  unfold handleEventText
  rw [splitOnChar_of_not_mem (dataLine_no_newline hnl), List.foldl_cons,
    List.foldl_nil, handleLine_dataLine parse acc j e hp]

theorem foldl_handleEventText (parse : List Char → Option StreamEvent) :
    ∀ (js : List (List Char)) (evs : List StreamEvent)
      (acc : List StreamEvent × Option EvaluationResult),
    List.Forall₂ (fun j e => parse j = some e) js evs →
    (∀ j ∈ js, '\n' ∉ j) →
    (js.map dataLine).foldl (handleEventText parse) acc =
      (acc.1 ++ evs, evs.foldl applyComplete acc.2) := by
  intro js
  induction js with
  | nil =>
    intro evs acc hf _
    cases hf
    simp
  | cons j js ih =>
    intro evs acc hf hnl
    cases hf with
    | cons h1 h2 =>
      rw [List.map_cons, List.foldl_cons,
        handleEventText_dataLine parse acc j _ (hnl j (by simp)) h1,
        ih _ _ h2 (fun x hx => hnl x (List.mem_cons_of_mem _ hx))]
      simp

theorem forall₂_concat {α β : Type} {R : α → β → Prop} :
    ∀ (l₀ : List α) (a : α) (l' : List β),
    List.Forall₂ R (l₀ ++ [a]) l' →
    ∃ l₀' b, l' = l₀' ++ [b] ∧ List.Forall₂ R l₀ l₀' ∧ R a b := by
  intro l₀
  induction l₀ with
  | nil =>
    intro a l' h
    cases h with
    | cons h1 h2 =>
      cases h2
      exact ⟨[], _, rfl, List.Forall₂.nil, h1⟩
  | cons x l₀ ih =>
    intro a l' h
    cases h with
    | cons h1 h2 =>
      obtain ⟨l₀', b, rfl, hf, hR⟩ := ih a _ h2
      exact ⟨_ :: l₀', b, rfl, List.Forall₂.cons h1 hf, hR⟩

theorem lastCompleteResult_eq_foldl (evs : List StreamEvent) :
    lastCompleteResult evs = evs.foldl applyComplete none := by
  induction evs using List.reverseRecOn with
  | nil => rfl
  | append_singleton evs e ih =>
    rw [List.foldl_append, List.foldl_cons, List.foldl_nil, ← ih]
    unfold lastCompleteResult
    rw [List.filter_append]
    by_cases hp : (e.type == "complete" && e.result.isSome) = true
    · rw [show List.filter (fun e => e.type == "complete" && e.result.isSome) [e]
          = [e] from by simp [hp], List.getLast?_concat]
      simp [applyComplete, hp]
    · rw [show List.filter (fun e => e.type == "complete" && e.result.isSome) [e]
          = [] from by simp [hp], List.append_nil]
      simp only [applyComplete]
      rw [if_neg hp]

theorem foldl_streamStep (parse : List Char → Option StreamEvent)
    (init : List StreamEvent × Option EvaluationResult) :
    ∀ chunks : List (List Char),
    chunks.foldl (streamStep parse) ([], init) =
      ((splitNN chunks.flatten).getLastD [],
        (splitNN chunks.flatten).dropLast.foldl (handleEventText parse) init) := by
  intro chunks
  induction chunks using List.reverseRecOn with
  | nil => simp [splitNN_nil]
  | append_singleton cs c ih =>
    rw [List.foldl_append, List.foldl_cons, List.foldl_nil, ih]
    unfold streamStep
    have hflat : (cs ++ [c]).flatten = cs.flatten ++ c := by
      rw [List.flatten_append]
      simp
    rw [hflat, splitNN_append cs.flatten c]
    have hPne : splitNN ((splitNN cs.flatten).getLastD [] ++ c) ≠ [] :=
      splitNN_ne_nil _
    rw [getLastD_append_of_ne_nil _ _ hPne, dropLast_append_of_ne_nil _ hPne,
      List.foldl_append]

theorem evaluateStream_flatten (parse : List Char → Option StreamEvent)
    (chunks : List (List Char)) :
    evaluateStream parse chunks = evaluateStream parse [chunks.flatten] := by
  unfold evaluateStream
  rw [foldl_streamStep, foldl_streamStep]
  have h : ([chunks.flatten] : List (List Char)).flatten = chunks.flatten := by
    simp
  rw [h]

/-! ## Claim theorems -/

/-- Claim C1: for every stream body whose text consists of events of the
form `data: <single JSON object>` separated by blank lines,
`llmApi.evaluateStream` invokes the `onEvent` callback exactly once per
event, in stream order, and returns the `EvaluationResult` carried by the
last event of type `complete` that carries a result; if the stream
contains no `complete` event with a result, it returns `null`.  The
serialized events are the `js`; being single JSON objects on one line is
captured by `'\n' ∉ j` together with `parse j = some e`. -/
theorem claim_C1 (parse : List Char → Option StreamEvent)
    (js : List (List Char)) (evs : List StreamEvent)
    (hne : js ≠ [])
    (hnl : ∀ j ∈ js, '\n' ∉ j)
    (hparse : List.Forall₂ (fun j e => parse j = some e) js evs) :
    evaluateStream parse [sseText js] = (evs, lastCompleteResult evs) := by
  obtain ⟨js₀, jl, hjs⟩ := js.eq_nil_or_concat.resolve_left hne
  rw [List.concat_eq_append] at hjs
  subst hjs
  obtain ⟨evs₀, el, rfl, hf₀, hR⟩ := forall₂_concat js₀ jl evs hparse
  unfold evaluateStream sseText
  rw [List.foldl_cons, List.foldl_nil]
  unfold streamStep
  have hmapnl : ∀ e ∈ (js₀ ++ [jl]).map dataLine, '\n' ∉ e := by
    intro e he
    rw [List.mem_map] at he
    obtain ⟨j, hj, rfl⟩ := he
    exact dataLine_no_newline (hnl j hj)
  have hsplit : splitNN ([] ++ intercalateNN ((js₀ ++ [jl]).map dataLine)) =
      js₀.map dataLine ++ [dataLine jl] := by
    rw [List.nil_append,
      splitNN_intercalateNN _ (by simp) hmapnl, List.map_append, List.map_cons,
      List.map_nil]
  rw [hsplit]
  dsimp only
  rw [List.dropLast_concat]
  have hlast : (js₀.map dataLine ++ [dataLine jl]).getLastD [] = dataLine jl := by
    rw [List.getLastD_eq_getLast?, List.getLast?_concat]
    rfl
  rw [hlast,
    foldl_handleEventText parse js₀ evs₀ ([], none) hf₀
      (fun x hx => hnl x (List.mem_append_left _ hx)),
    List.nil_append]
  unfold flushTail
  have htrim : trimWS (dataLine jl) ≠ [] := by
    have hshape : dataLine jl = 'd' :: (chars "ata: " ++ jl) := rfl
    rw [hshape]
    exact trimWS_cons_ne_nil _ (by decide)
  rw [if_pos htrim]
  have hev : (splitOnChar '\n' (dataLine jl)).foldl (handleLine parse)
      (evs₀, evs₀.foldl applyComplete none) =
      (evs₀ ++ [el], applyComplete (evs₀.foldl applyComplete none) el) := by
    rw [splitOnChar_of_not_mem (dataLine_no_newline (hnl jl (by simp))),
      List.foldl_cons, List.foldl_nil,
      handleLine_dataLine parse (evs₀, evs₀.foldl applyComplete none) jl el hR]
  rw [hev, lastCompleteResult_eq_foldl, List.foldl_append, List.foldl_cons,
    List.foldl_nil]

/-- Witness for C1: a two-event stream, a stage event then a `complete`
event carrying a result; the callback sees both events in order and the
carried result is returned. -/
theorem claim_C1_witness :
    evaluateStream
      (fun l =>
        if l = chars "1" then some { type := "node_complete", node := some "validate_input" }
        else if l = chars "2" then
          some { type := "complete",
                 result := some ⟨"id1", "q", "t", [], ⟨"", "", "", ""⟩⟩ }
        else none)
      [sseText [chars "1", chars "2"]] =
      ([{ type := "node_complete", node := some "validate_input" },
        { type := "complete", result := some ⟨"id1", "q", "t", [], ⟨"", "", "", ""⟩⟩ }],
       lastCompleteResult
        [{ type := "node_complete", node := some "validate_input" },
         { type := "complete", result := some ⟨"id1", "q", "t", [], ⟨"", "", "", ""⟩⟩ }]) := by
  refine claim_C1 _ _ _ (by simp) (by decide) ?_
  refine List.Forall₂.cons (by decide) (List.Forall₂.cons (by decide) List.Forall₂.nil)

/-- Claim C8: for every stream text and every partition of that text into
chunks, `llmApi.evaluateStream` produces the same sequence of `onEvent`
calls and the same return value as when the text arrives as a single
chunk — chunk boundaries never change the parsed event sequence. -/
theorem claim_C8 (parse : List Char → Option StreamEvent)
    (text : List Char) (chunks : List (List Char))
    (hpart : chunks.flatten = text) :
    evaluateStream parse chunks = evaluateStream parse [text] := by
  subst hpart
  exact evaluateStream_flatten parse chunks

/-- Witness for C8: a chunking that splits both inside the `data: ` tag and
between the two newlines of the event separator. -/
theorem claim_C8_witness :
    evaluateStream (fun _ => some { type := "node_start" })
      [chars "da", chars "ta: 1\n", chars "\ndata: 2"] =
    evaluateStream (fun _ => some { type := "node_start" })
      [chars "data: 1\n\ndata: 2"] :=
  claim_C8 _ (chars "data: 1\n\ndata: 2") _ (by decide)

/-! ## Lemmas about the selection list -/

theorem pairMatches_iff (p m : String) (s : ModelSelection) :
    pairMatches p m s = true ↔ pairOf s = (p, m) := by
  cases s with
  | mk a b => simp [pairMatches, pairOf]

theorem any_pairMatches_iff (l : List ModelSelection) (p m : String) :
    l.any (pairMatches p m) = true ↔ (p, m) ∈ l.map pairOf := by
  rw [List.any_eq_true]
  constructor
  · rintro ⟨s, hs, hps⟩
    exact List.mem_map.mpr ⟨s, hs, (pairMatches_iff p m s).mp hps⟩
  · intro h
    rw [List.mem_map] at h
    obtain ⟨s, hs, hps⟩ := h
    exact ⟨s, hs, (pairMatches_iff p m s).mpr hps⟩

theorem mem_map_pairOf_filter (l : List ModelSelection) (p m : String)
    (x : String × String) :
    x ∈ (l.filter (fun s => !(pairMatches p m s))).map pairOf ↔
      x ∈ l.map pairOf ∧ x ≠ (p, m) := by
  constructor
  · intro hx
    rw [List.mem_map] at hx
    obtain ⟨s, hs, rfl⟩ := hx
    rw [List.mem_filter] at hs
    refine ⟨List.mem_map_of_mem _ hs.1, ?_⟩
    intro heq
    have hpm := (pairMatches_iff p m s).mpr heq
    rw [hpm] at hs
    simp at hs
  · rintro ⟨hx, hne⟩
    rw [List.mem_map] at hx
    obtain ⟨s, hs, rfl⟩ := hx
    refine List.mem_map_of_mem _ ?_
    rw [List.mem_filter]
    refine ⟨hs, ?_⟩
    cases hpm : pairMatches p m s
    · simp
    · exact absurd ((pairMatches_iff p m s).mp hpm) hne

theorem toggleModel_nodup (p m : String) (l : List ModelSelection)
    (h : (l.map pairOf).Nodup) : ((toggleModel p m l).map pairOf).Nodup := by
  unfold toggleModel
  split
  · exact ((List.filter_sublist _).map pairOf).nodup h
  · rename_i hany
    have hnotin : (p, m) ∉ l.map pairOf := by
      intro hin
      exact hany ((any_pairMatches_iff l p m).mpr hin)
    rw [List.map_append, List.nodup_append]
    refine ⟨h, List.nodup_singleton _, ?_⟩
    intro a ha hb
    simp only [List.map_cons, List.map_nil, List.mem_singleton] at hb
    subst hb
    exact hnotin ha

/-- Claim C4: `QueryInput.handleSubmit` invokes `onSubmit` only when the
query is non-empty after trimming and the selections list is non-empty;
for every state violating either condition no submission call is made, and
the submit button is disabled as well. -/
theorem claim_C4 (query : String) (selections : List ModelSelection)
    (h : trimWS query.data = [] ∨ selections = []) :
    handleSubmit query selections = none ∧
    ∀ isLoading, submitDisabled query selections isLoading = true := by
  rcases h with h | h
  · constructor
    · unfold handleSubmit handleSubmitGuard
      rw [h]
      simp
    · intro b
      unfold submitDisabled
      rw [h]
      rfl
  · subst h
    constructor
    · unfold handleSubmit handleSubmitGuard
      simp
    · intro b
      unfold submitDisabled
      simp

/-- Witness for C4: a whitespace-only query with an empty selection list
never submits. -/
theorem claim_C4_witness :
    handleSubmit "   " [] = none ∧
    ∀ isLoading, submitDisabled "   " [] isLoading = true :=
  claim_C4 "   " [] (Or.inl (by decide))

/-- Claim C5: starting from the empty selections list, after every finite
sequence of `toggleModel` and `removeSelection` calls, the selections list
contains no two entries with the same `(provider, model)` pair. -/
theorem claim_C5 (ops : List SelOp) :
    ((ops.foldl applySelOp []).map pairOf).Nodup := by
  suffices h : ∀ init : List ModelSelection, (init.map pairOf).Nodup →
      ((ops.foldl applySelOp init).map pairOf).Nodup from h [] (by simp)
  induction ops with
  | nil =>
    intro init h
    simpa using h
  | cons op ops ih =>
    intro init h
    rw [List.foldl_cons]
    refine ih _ ?_
    cases op with
    | toggle p m => exact toggleModel_nodup p m init h
    | remove p m => exact ((List.filter_sublist _).map pairOf).nodup h

/-- Claim C10: applying `toggleModel` twice in succession with the same
`(provider, model)` pair leaves pair membership unchanged, for every
starting selections list. -/
theorem claim_C10 (l : List ModelSelection) (p m : String)
    (x : String × String) :
    x ∈ (toggleModel p m (toggleModel p m l)).map pairOf ↔ x ∈ l.map pairOf := by
  by_cases hany : l.any (pairMatches p m) = true
  · have h1 : toggleModel p m l = l.filter (fun s => !(pairMatches p m s)) := by
      unfold toggleModel
      rw [if_pos hany]
    have h2 : (l.filter (fun s => !(pairMatches p m s))).any (pairMatches p m)
        = false := by
      cases hc : (l.filter (fun s => !(pairMatches p m s))).any (pairMatches p m)
      · rfl
      · have := (any_pairMatches_iff _ p m).mp hc
        rw [mem_map_pairOf_filter] at this
        exact absurd rfl this.2
    have h3 : toggleModel p m (l.filter (fun s => !(pairMatches p m s))) =
        l.filter (fun s => !(pairMatches p m s)) ++ [⟨p, m⟩] := by
      unfold toggleModel
      rw [h2]
      rfl
    rw [h1, h3, List.map_append, List.mem_append]
    simp only [List.map_cons, List.map_nil, List.mem_singleton]
    rw [mem_map_pairOf_filter]
    constructor
    · rintro (⟨hx, _⟩ | hx)
      · exact hx
      · rw [show pairOf ⟨p, m⟩ = (p, m) from rfl] at hx
        subst hx
        exact (any_pairMatches_iff l p m).mp hany
    · intro hx
      by_cases hxe : x = (p, m)
      · exact Or.inr (by rw [show pairOf ⟨p, m⟩ = (p, m) from rfl]; exact hxe)
      · exact Or.inl ⟨hx, hxe⟩
  · have h1 : toggleModel p m l = l ++ [⟨p, m⟩] := by
      unfold toggleModel
      rw [if_neg hany]
    have h2 : (l ++ [(⟨p, m⟩ : ModelSelection)]).any (pairMatches p m) = true := by
      rw [List.any_append]
      simp [pairMatches]
    have h3 : toggleModel p m (l ++ [(⟨p, m⟩ : ModelSelection)]) =
        (l ++ [(⟨p, m⟩ : ModelSelection)]).filter (fun s => !(pairMatches p m s)) := by
      unfold toggleModel
      rw [if_pos h2]
    have h4 : (l ++ [(⟨p, m⟩ : ModelSelection)]).filter (fun s => !(pairMatches p m s)) = l := by
      rw [List.filter_append]
      have h5 : List.filter (fun s => !(pairMatches p m s))
          [(⟨p, m⟩ : ModelSelection)] = [] := by
        simp [pairMatches]
      rw [h5, List.append_nil, List.filter_eq_self]
      intro s hs
      cases hpm : pairMatches p m s
      · rfl
      · exact absurd (List.any_eq_true.mpr ⟨s, hs, hpm⟩) hany
    rw [h1, h3, h4]

/-- Claim C6: when `handleStreamEvent` receives a `complete` event carrying
a result, it sets that result as the current result and prepends it to the
history list; every previously stored history entry is unchanged and keeps
its relative position. -/
theorem claim_C6 (s : AppState) (e : StreamEvent) (r : EvaluationResult)
    (htype : e.type = "complete") (hres : e.result = some r) :
    (handleStreamEvent s e).currentResult = some r ∧
    (handleStreamEvent s e).history = r :: s.history ∧
    ∀ i : Nat, (handleStreamEvent s e).history[i + 1]? = s.history[i]? := by
  have hh : handleStreamEvent s e =
      { s with currentResult := some r, history := r :: s.history } := by
    unfold handleStreamEvent
    rw [htype, hres]
    simp
  rw [hh]
  exact ⟨rfl, rfl, fun i => by simp⟩

/-- Witness for C6: a concrete `complete` event prepends its result to an
empty history. -/
theorem claim_C6_witness :
    (handleStreamEvent ⟨none, [], none, none, []⟩
        { type := "complete",
          result := some ⟨"idw", "q", "t", [], ⟨"", "", "", ""⟩⟩ }).history =
      [⟨"idw", "q", "t", [], ⟨"", "", "", ""⟩⟩] ∧
    (handleStreamEvent ⟨none, [], none, none, []⟩
        { type := "complete",
          result := some ⟨"idw", "q", "t", [], ⟨"", "", "", ""⟩⟩ }).currentResult =
      some ⟨"idw", "q", "t", [], ⟨"", "", "", ""⟩⟩ :=
  ⟨(claim_C6 _ _ _ rfl rfl).2.1, (claim_C6 _ _ _ rfl rfl).1⟩

/-- Claim C7: `shortenModelName` returns `"N/A"` on the empty string,
otherwise the last `/`-separated segment unchanged when it has at most 20
characters and its first 18 characters followed by `"..."` when longer;
consequently all four summary cells render as `"N/A"` for a result whose
summary fields are all empty. -/
theorem claim_C7 :
    (∀ s : String,
      (s = "" → shortenModelName s = "N/A") ∧
      (s ≠ "" → (lastSegment s).length ≤ 20 →
        shortenModelName s = String.mk (lastSegment s)) ∧
      (s ≠ "" → 20 < (lastSegment s).length →
        shortenModelName s = String.mk ((lastSegment s).take 18) ++ "...")) ∧
    (∀ cs : ComparisonSummary, cs.fastest = "" → cs.highest_quality = "" →
      cs.most_cost_effective = "" → cs.best_overall = "" →
      summaryCells cs = ["N/A", "N/A", "N/A", "N/A"]) := by
  have key : ∀ s : String,
      (s = "" → shortenModelName s = "N/A") ∧
      (s ≠ "" → (lastSegment s).length ≤ 20 →
        shortenModelName s = String.mk (lastSegment s)) ∧
      (s ≠ "" → 20 < (lastSegment s).length →
        shortenModelName s = String.mk ((lastSegment s).take 18) ++ "...") := by
    intro s
    refine ⟨?_, ?_, ?_⟩
    · intro h
      subst h
      rfl
    · intro hne hlen
      unfold shortenModelName
      rw [if_neg hne]
      dsimp only
      rw [show (splitOnChar '/' s.data).getLastD [] = lastSegment s from rfl,
        if_neg (Nat.not_lt.mpr hlen)]
    · intro hne hlen
      unfold shortenModelName
      rw [if_neg hne]
      dsimp only
      rw [show (splitOnChar '/' s.data).getLastD [] = lastSegment s from rfl,
        if_pos hlen]
  refine ⟨key, ?_⟩
  intro cs h1 h2 h3 h4
  unfold summaryCells
  rw [h1, h2, h3, h4, (key "").1 rfl]

/-- Witness for C7: the three shapes of output on concrete inputs, and the
all-empty summary rendering. -/
theorem claim_C7_witness :
    shortenModelName "" = "N/A" ∧
    shortenModelName "groq/llama3" = String.mk (lastSegment "groq/llama3") ∧
    shortenModelName "meta/llama-3.1-405b-instruct-turbo" =
      String.mk ((lastSegment "meta/llama-3.1-405b-instruct-turbo").take 18) ++ "..." ∧
    summaryCells ⟨"", "", "", ""⟩ = ["N/A", "N/A", "N/A", "N/A"] :=
  ⟨(claim_C7.1 "").1 rfl,
   (claim_C7.1 _).2.1 (by decide) (by decide),
   (claim_C7.1 _).2.2 (by decide) (by decide),
   claim_C7.2 ⟨"", "", "", ""⟩ rfl rfl rfl rfl⟩

/-- Counterexample for C2 as stated: the claim asserts that the client's
progress model enumerates exactly the seven stage names, but the status
map of the alternate client in `src/unnamed/part_000` enumerates six
names, contains `run_tools`, and omits `error_recovery` (and
`llm_judge`). -/
theorem claim_C2_counterexample :
    statusMapLegacy.map Prod.fst ≠ allNodes ∧
    "run_tools" ∈ statusMapLegacy.map Prod.fst ∧
    "run_tools" ∉ allNodes ∧
    "error_recovery" ∈ allNodes ∧
    "error_recovery" ∉ statusMapLegacy.map Prod.fst ∧
    "llm_judge" ∈ allNodes ∧
    "llm_judge" ∉ statusMapLegacy.map Prod.fst := by
  decide

/-- Claim C2 (amended): for all valid requests the pipeline (modelled from
the spec) emits exactly one `node_complete` event per stage name, in the
fixed seven-stage order, followed by exactly one `complete` event; the
progress model of `App.tsx` (`allNodes` and its status map) enumerates
exactly these seven stage names in this order, while the legacy client of
`src/unnamed/part_000` does not. -/
theorem claim_C2_amended (req : EvaluationRequest) (r : EvaluationResult)
    (hvalid : validRequest req = true) :
    pipelineEvents req r =
      pipelineStages.map (fun n => { type := "node_complete", node := some n }) ++
        [{ type := "complete", result := some r }] ∧
    (pipelineEvents req r).filterMap
      (fun e => if e.type == "node_complete" then e.node else none) =
      pipelineStages ∧
    pipelineStages.Nodup ∧
    (pipelineEvents req r).countP (fun e => e.type == "complete") = 1 ∧
    (pipelineEvents req r).getLast? =
      some { type := "complete", result := some r } ∧
    pipelineStages = allNodes ∧
    statusMap.map Prod.fst = allNodes ∧
    statusMapLegacy.map Prod.fst ≠ allNodes := by
  have he : pipelineEvents req r =
      pipelineStages.map (fun n => { type := "node_complete", node := some n }) ++
        [{ type := "complete", result := some r }] := by
    unfold pipelineEvents
    rw [if_pos hvalid]
  refine ⟨he, ?_, by decide, ?_, ?_, by decide, by decide, by decide⟩
  · rw [he]
    simp [pipelineStages]
  · rw [he]
    simp [pipelineStages]
  · rw [he, List.getLast?_concat]

/-- Witness for C2 (amended): a concrete valid one-selection request. -/
theorem claim_C2_amended_witness :
    pipelineStages = allNodes ∧
    (pipelineEvents ⟨"q", [⟨"groq", "llama3"⟩]⟩
        ⟨"id0", "q", "t", [], ⟨"", "", "", ""⟩⟩).countP
      (fun e => e.type == "complete") = 1 :=
  ⟨(claim_C2_amended ⟨"q", [⟨"groq", "llama3"⟩]⟩
      ⟨"id0", "q", "t", [], ⟨"", "", "", ""⟩⟩ (by decide)).2.2.2.2.2.1,
   (claim_C2_amended ⟨"q", [⟨"groq", "llama3"⟩]⟩
      ⟨"id0", "q", "t", [], ⟨"", "", "", ""⟩⟩ (by decide)).2.2.2.1⟩

/-- Counterexample for C3 as stated: the `StreamEvent.type` union of
`types/api.ts` is not `{stage_complete, error, complete}` — it contains
`node_start` and `node_complete` and no `stage_complete`. -/
theorem claim_C3_counterexample :
    "node_start" ∈ streamEventTypes ∧
    "node_complete" ∈ streamEventTypes ∧
    "stage_complete" ∉ streamEventTypes := by
  decide

/-- Claim C3 (amended): every `StreamEvent` has kind drawn from exactly
`{node_start, node_complete, error, complete}`; the client's stream-event
handler handles `node_complete`, `error` and `complete` and leaves the
state unchanged on `node_start` (which has no switch case). -/
theorem claim_C3_amended :
    streamEventTypes = ["node_start", "node_complete", "error", "complete"] ∧
    (∀ (s : AppState) (e : StreamEvent), e.type = "node_start" →
      handleStreamEvent s e = s) ∧
    (∀ (s : AppState) (e : StreamEvent) (n : String), e.type = "node_complete" →
      e.node = some n → n ≠ "" →
      (handleStreamEvent s e).completedNodes = s.completedNodes ++ [n] ∧
      (handleStreamEvent s e).streamingStatus = some (statusOf n)) ∧
    (∀ (s : AppState) (e : StreamEvent) (m : String), e.type = "error" →
      e.error = some m → m ≠ "" → (handleStreamEvent s e).error = some m) ∧
    (∀ (s : AppState) (e : StreamEvent) (r : EvaluationResult),
      e.type = "complete" → e.result = some r →
      (handleStreamEvent s e).currentResult = some r ∧
      (handleStreamEvent s e).history = r :: s.history) := by
  refine ⟨rfl, ?_, ?_, ?_, ?_⟩
  · intro s e h
    unfold handleStreamEvent
    rw [h]
    simp
  · intro s e n h hn hne
    unfold handleStreamEvent
    rw [h, hn]
    simp [hne]
  · intro s e m h hm hne
    unfold handleStreamEvent
    rw [h, hm]
    simp [hne]
  · intro s e r h hr
    unfold handleStreamEvent
    rw [h, hr]
    simp

/-- Witness for C3 (amended): concrete events of each handled kind, and a
`node_start` event that leaves the state unchanged. -/
theorem claim_C3_amended_witness :
    handleStreamEvent ⟨none, [], none, none, []⟩ { type := "node_start" } =
      ⟨none, [], none, none, []⟩ ∧
    (handleStreamEvent ⟨none, [], none, none, []⟩
      { type := "node_complete", node := some "validate_input" }).completedNodes =
      [] ++ ["validate_input"] ∧
    (handleStreamEvent ⟨none, [], none, none, []⟩
      { type := "error", error := some "boom" }).error = some "boom" ∧
    (handleStreamEvent ⟨none, [], none, none, []⟩
      { type := "complete",
        result := some ⟨"idc3", "q", "t", [], ⟨"", "", "", ""⟩⟩ }).currentResult =
      some ⟨"idc3", "q", "t", [], ⟨"", "", "", ""⟩⟩ :=
  ⟨claim_C3_amended.2.1 _ _ rfl,
   (claim_C3_amended.2.2.1 _ _ _ rfl rfl (by decide)).1,
   claim_C3_amended.2.2.2.1 _ _ _ rfl rfl (by decide),
   (claim_C3_amended.2.2.2.2 _ _ _ rfl rfl).1⟩

/-- Claim C9: after `ChatPanel.handleSend` completes for a non-empty input
(and `isLoading` false), the submitted user message content appears
exactly once among the messages the call appends, on both the success and
the failure path; on failure the list additionally gains the assistant
error message, and in both cases every previously displayed message is
kept as an unchanged prefix.  The freshness of the `Date.now()`-based
temporary id and the assistant role of the server reply are assumptions
about the environment. -/
theorem claim_C9 (input : String) (prev : List ChatMessage)
    (t1 t2 iso1 iso2 : String) (outcome : Option ChatResponse)
    (hin : trimWS input.data ≠ [])
    (hfresh : ∀ msg ∈ prev, msg.id ≠ "temp-" ++ t1)
    (hrole : ∀ resp, outcome = some resp → resp.message.role ≠ "user") :
    ∃ added,
      handleSend input false prev t1 t2 iso1 iso2 outcome = prev ++ added ∧
      added.countP (fun msg => msg.role == "user" &&
        msg.content == String.mk (trimWS input.data)) = 1 ∧
      (outcome = none →
        added.countP (fun msg => msg.role == "assistant" &&
          msg.content == chatErrorText) = 1) := by
  have hcond : ¬(trimWS input.data = [] ∨ (false : Bool) = true) := by
    rintro (h | h)
    · exact hin h
    · simp at h
  unfold handleSend
  rw [if_neg hcond]
  dsimp only
  cases outcome with
  | some resp =>
    have hr : (resp.message.role == "user") = false :=
      beq_eq_false_iff_ne.mpr (hrole resp rfl)
    have hstep : (prev ++
        [(⟨"temp-" ++ t1, "user", String.mk (trimWS input.data), iso1⟩ :
          ChatMessage)]).filter (fun m => m.id != "temp-" ++ t1) = prev := by
      rw [List.filter_append]
      have h1 : List.filter (fun m => m.id != "temp-" ++ t1)
          [(⟨"temp-" ++ t1, "user", String.mk (trimWS input.data), iso1⟩ :
            ChatMessage)] = [] := by
        simp
      have h2 : List.filter (fun m => m.id != "temp-" ++ t1) prev = prev := by
        rw [List.filter_eq_self]
        intro a ha
        simpa using hfresh a ha
      rw [h1, h2, List.append_nil]
    refine ⟨[⟨"user-" ++ t2, "user", String.mk (trimWS input.data), iso1⟩,
      resp.message], ?_, ?_, ?_⟩
    · rw [hstep]
    · simp [List.countP_cons, hr]
    · intro h
      cases h
  | none =>
    refine ⟨[⟨"temp-" ++ t1, "user", String.mk (trimWS input.data), iso1⟩,
      ⟨"error-" ++ t2, "assistant", chatErrorText, iso2⟩], ?_, ?_, ?_⟩
    · dsimp only
      rw [List.append_assoc]
      rfl
    · simp [List.countP_cons]
    · intro _
      simp [List.countP_cons]

/-- Witness for C9: a failure-path call with a fresh temporary id. -/
theorem claim_C9_witness :
    ∃ added, handleSend "hi" false [] "1" "2" "a" "b" none = [] ++ added ∧
      added.countP (fun msg => msg.role == "user" &&
        msg.content == String.mk (trimWS "hi".data)) = 1 ∧
      ((none : Option ChatResponse) = none →
        added.countP (fun msg => msg.role == "assistant" &&
          msg.content == chatErrorText) = 1) :=
  claim_C9 "hi" [] "1" "2" "a" "b" none (by decide) (by simp)
    (fun resp h => nomatch h)

end MultiLLMEval
